import Mathlib

/-!
Verification of the go-gather archive expansion engine and source dispatch
registries, shallowly embedded from the repository source.

Strings are modelled as `List Char` (`GoStr`), mirroring Go's byte/character
strings for the ASCII inputs this library manipulates.  Each `go…` definition
below embeds the semantics of the Go standard-library string or path helper
that the repository calls (`strings.HasPrefix`, `strings.Contains`,
`strings.Cut`, `strings.Split`, `strings.ReplaceAll`, `strings.TrimPrefix`,
`path/filepath.Clean`, `path/filepath.Join`), specialised to the non-empty
separators the repository actually uses.
-/

abbrev GoStr := List Char

/-- Coerce a Lean string literal to the `List Char` model. -/
def gs (s : String) : GoStr := s.toList

/-- `strings.HasPrefix(s, pat)` — here with the pattern first:
`goStarts pat s` is true iff `pat` is a prefix of `s`. -/
def goStarts : GoStr → GoStr → Bool
  | [], _ => true
  | _ :: _, [] => false
  | p :: ps, c :: cs => p == c && goStarts ps cs

/-- `strings.Contains(s, pat)`: `pat` occurs as a contiguous substring of `s`. -/
def goContains : GoStr → GoStr → Bool
  | [], pat => pat.isEmpty
  | c :: rest, pat => goStarts pat (c :: rest) || goContains rest pat

/-- `strings.HasSuffix(s, pat)`. -/
def goEndsWith (s pat : GoStr) : Bool := goStarts pat.reverse s.reverse

/-- `strings.TrimPrefix(s, pat)`. -/
def goTrimStart (s pat : GoStr) : GoStr :=
  if goStarts pat s then s.drop pat.length else s

/-- Apply `strings.TrimPrefix` for each pattern of a list in order, as the
repository's `for _, scheme := range …  { u = strings.TrimPrefix(u, scheme) }`
loops do. -/
def goTrimChain (s : GoStr) (pats : List GoStr) : GoStr :=
  pats.foldl goTrimStart s

/-- `strings.Cut(s, pat)`: `(before, after, found)` at the first occurrence of
`pat` in `s`. -/
def goCut : GoStr → GoStr → GoStr × GoStr × Bool
  | s, pat =>
    match s with
    | [] => if goStarts pat [] then ([], [], true) else ([], [], false)
    | c :: rest =>
      if goStarts pat (c :: rest) then ([], (c :: rest).drop pat.length, true)
      else
        let r := goCut rest pat
        (c :: r.1, r.2.1, r.2.2)

/-- Auxiliary for `goSplit`: `skip` counts separator characters still to be
consumed after a separator match was detected (the separator patterns used by
the repository are non-empty). -/
def goSplitAux (sep : GoStr) : Nat → GoStr → List GoStr
  | _ + 1, [] => [[]]
  | n + 1, _ :: rest => goSplitAux sep n rest
  | 0, [] => [[]]
  | 0, c :: rest =>
    if sep ≠ [] ∧ goStarts sep (c :: rest) = true then
      [] :: goSplitAux sep (sep.length - 1) rest
    else
      match goSplitAux sep 0 rest with
      | [] => [[c]]
      | hd :: tl => (c :: hd) :: tl

/-- `strings.Split(s, sep)` for a non-empty separator `sep` (every separator
the repository splits on is non-empty; Go's per-rune behaviour for an empty
separator is not modelled). -/
def goSplit (s sep : GoStr) : List GoStr := goSplitAux sep 0 s

/-- Auxiliary for `goReplaceAll`: `skip` counts pattern characters still to be
consumed after a match was detected. -/
def goReplaceAllAux (old new : GoStr) : Nat → GoStr → GoStr
  | _ + 1, [] => []
  | n + 1, _ :: rest => goReplaceAllAux old new n rest
  | 0, [] => []
  | 0, c :: rest =>
    if old ≠ [] ∧ goStarts old (c :: rest) = true then
      new ++ goReplaceAllAux old new (old.length - 1) rest
    else
      c :: goReplaceAllAux old new 0 rest

/-- `strings.ReplaceAll(s, old, new)` for a non-empty `old` (the repository
only replaces the non-empty literal `"localhost"`). -/
def goReplaceAll (s old new : GoStr) : GoStr := goReplaceAllAux old new 0 s

/-- `strings.Replace(s, old, new, 1)`: replace only the first occurrence. -/
def goReplaceFirst (s old new : GoStr) : GoStr :=
  let r := goCut s old
  if r.2.2 then r.1 ++ new ++ r.2.1 else s

/-- Element processing of `path/filepath.Clean` (unix rules): drop empty and
`"."` elements, let `".."` pop a previous element, keep leading `".."`s of a
relative path, and drop leading `".."`s of a rooted path. -/
def goCleanElems (rooted : Bool) (elems : List GoStr) : List GoStr :=
  (elems.foldl
    (fun st e =>
      if e = [] ∨ e = ['.'] then st
      else if e = ['.', '.'] then
        match st with
        | [] => if rooted then [] else [['.', '.']]
        | top :: rest => if top = ['.', '.'] then ['.', '.'] :: st else rest
      else e :: st)
    []).reverse

/-- `path/filepath.Clean` on unix: lexical normalization of a path. -/
def goClean (path : GoStr) : GoStr :=
  let rooted := goStarts ['/'] path
  let parts := goCleanElems rooted (goSplit path ['/'])
  if parts = [] then (if rooted then ['/'] else ['.'])
  else (if rooted then ['/'] else []) ++ List.intercalate ['/'] parts

/-- `path/filepath.Join(a, b)`: join the non-empty components with `/` and
`Clean` the result; all components empty yields the empty path. -/
def goJoin (a b : GoStr) : GoStr :=
  let parts := [a, b].filter (fun e => !e.isEmpty)
  if parts.isEmpty then [] else goClean (List.intercalate ['/'] parts)

/-!
## Archive expansion engine (src/expand/tar/tar.go)

The `untar` loop of the tar-family expander is embedded as a pure function
over the list of headers the tar reader yields before EOF.  Filesystem side
effects are modelled as the lists of file paths written and directories
created; any abort is the `err` field.  `TarExpander.Expand` feeds a plain,
gzip- or bzip2-decompressed stream into this same routine, so `untar` is the
behaviour of the whole tar family.
-/

/-- Tar header type flags relevant to `untar`: regular file, directory, pax
per-entry extended header (`TypeXHeader`), pax global extended header
(`TypeXGlobalHeader`). -/
inductive TypeFlag
  | reg
  | dir
  | xHeader
  | xGlobalHeader
deriving DecidableEq, Repr

/-- One header yielded by the tar reader: entry name, type flag, and declared
size (`header.FileInfo().Size()`; Go's reader rejects negative sizes, so the
size is a natural number). -/
structure TarHeader where
  name : GoStr
  typeflag : TypeFlag
  size : Nat
deriving DecidableEq, Repr

/-- Errors with which an expansion can abort. -/
inductive ExpErr
  | emptyTar
  | tooManyFiles
  | illegalPath (p : GoStr)
  | sizeExceeded
  | zipEntryTooLarge (name : GoStr)
  | zipCopyExceeded (name : GoStr)
deriving DecidableEq, Repr

/-- Outcome of an expansion: files written, directories created (in
processing order), and the terminal error if the call aborted. -/
structure ExpOut where
  written : List GoStr
  dirs : List GoStr
  err : Option ExpErr
deriving DecidableEq, Repr

/-- `header.Typeflag == tar.TypeXGlobalHeader || header.Typeflag == tar.TypeXHeader`. -/
def isExtHeader (h : TarHeader) : Bool :=
  h.typeflag == .xGlobalHeader || h.typeflag == .xHeader

/-- The zip-slip containment check of `untar` (tar.go:157) and
`ZipExpander.Expand` (tar.go:316): the candidate path must start with
`filepath.Clean(dst)` followed by the path separator. -/
def insideDst (dst fPath : GoStr) : Bool :=
  goStarts (goClean dst ++ ['/']) fPath

/-- The body of `untar`'s `for` loop (tar.go:128-213), running over the
remaining headers with the current `filesCount` and `totalFileSize`. -/
def untarLoop (dst : GoStr) (fileSizeLimit filesLimit : Int) :
    List TarHeader → Int → Nat → ExpOut
  | [], _, _ => ⟨[], [], none⟩
  | h :: rest, filesCount, totalFileSize =>
    let filesCount' := if filesLimit > 0 then filesCount + 1 else filesCount
    if filesLimit > 0 ∧ filesCount' > filesLimit then
      ⟨[], [], some .tooManyFiles⟩
    else if isExtHeader h then
      untarLoop dst fileSizeLimit filesLimit rest filesCount' totalFileSize
    else
      let fPath := goJoin dst h.name
      if ¬ insideDst dst (goClean fPath) then
        ⟨[], [], some (.illegalPath fPath)⟩
      else
        let totalFileSize' :=
          if h.typeflag = TypeFlag.dir then totalFileSize else totalFileSize + h.size
        if h.typeflag ≠ TypeFlag.dir ∧ fileSizeLimit > 0 ∧ (totalFileSize' : Int) > fileSizeLimit then
          ⟨[], [], some .sizeExceeded⟩
        else if h.typeflag = TypeFlag.dir then
          let r := untarLoop dst fileSizeLimit filesLimit rest filesCount' totalFileSize'
          ⟨r.written, fPath :: r.dirs, r.err⟩
        else
          let r := untarLoop dst fileSizeLimit filesLimit rest filesCount' totalFileSize'
          ⟨fPath :: r.written, r.dirs, r.err⟩

/-- `untar` (tar.go:114-236): process the headers the stream yields before
EOF; a stream with zero headers is the distinct "tar file is empty" error. -/
def untar (dst : GoStr) (fileSizeLimit filesLimit : Int)
    (hdrs : List TarHeader) : ExpOut :=
  if hdrs.isEmpty then ⟨[], [], some .emptyTar⟩
  else untarLoop dst fileSizeLimit filesLimit hdrs 0 0

/-!
## Zip expander (src/expand/tar/tar.go, `package zip` half)
-/

/-- One central-directory entry of a zip archive: name, directory flag,
declared (pre-flight) size from `f.FileInfo().Size()`, and the byte counts of
the successive reads its decompressed stream yields during copy. -/
structure ZipEntry where
  name : GoStr
  isDir : Bool
  declaredSize : Nat
  chunks : List Nat
deriving DecidableEq, Repr

/-- The `ZipExpander` configuration struct (tar.go:277-280).  `FilesLimit` is
declared by the source but, as the theorems below record, never read. -/
structure ZipExpander where
  FileSizeLimit : Int
  FilesLimit : Int
deriving DecidableEq, Repr

/-- The read/write loop of `ZipExpander.extractFile` (tar.go:358-377):
accumulate the bytes actually decompressed for this one entry and abort when a
positive limit is exceeded. -/
def zipCopyLoop (lim : Int) (name : GoStr) : List Nat → Nat → Option ExpErr
  | [], _ => none
  | n :: rest, totalBytes =>
    if n > 0 then
      let totalBytes' := totalBytes + n
      if lim > 0 ∧ (totalBytes' : Int) > lim then some (.zipCopyExceeded name)
      else zipCopyLoop lim name rest totalBytes'
    else zipCopyLoop lim name rest totalBytes

/-- The entry loop of `ZipExpander.Expand` (tar.go:307-337). -/
def zipLoop (lim : Int) (dst : GoStr) : List ZipEntry → ExpOut
  | [] => ⟨[], [], none⟩
  | f :: rest =>
    if lim > 0 ∧ (f.declaredSize : Int) > lim then
      ⟨[], [], some (.zipEntryTooLarge f.name)⟩
    else
      let filePath := goJoin dst f.name
      if ¬ insideDst dst filePath then
        ⟨[], [], some (.illegalPath filePath)⟩
      else if f.isDir then
        let r := zipLoop lim dst rest
        ⟨r.written, filePath :: r.dirs, r.err⟩
      else
        match zipCopyLoop lim f.name f.chunks 0 with
        | some e => ⟨[filePath], [], some e⟩
        | none =>
          let r := zipLoop lim dst rest
          ⟨filePath :: r.written, r.dirs, r.err⟩

/-- `ZipExpander.Expand` (tar.go:284-340): the method reads only the
`FileSizeLimit` field of its receiver. -/
def ZipExpander.expand (z : ZipExpander) (dst : GoStr)
    (entries : List ZipEntry) : ExpOut :=
  zipLoop z.FileSizeLimit dst entries

/-!
## Expander registry and format matchers
(src/expand/expander.go, src/expand/tar/tar.go, src/expand/bzip2/bzip2.go)
-/

/-- The registered expander implementations. -/
inductive ExpanderTag
  | tar
  | zip
  | bzip2
deriving DecidableEq, Repr

/-- The `Matcher` method of each expander, from its source. -/
def expanderMatcher : ExpanderTag → GoStr → Bool
  | .tar, fileName =>
    [gs "tar", gs "tgz", gs "tbz2"].any (fun ext => goContains fileName ext)
  | .zip, extension => goContains extension (gs "zip")
  | .bzip2, extension =>
    (goContains extension (gs "bz2") || goContains extension (gs "bzip2"))
      && !goContains extension (gs "tar")

/-- `GetExpander` (expander.go:39-46): first registered expander whose
`Matcher` accepts the name, `nil` (here `none`) when none match. -/
def GetExpander (registered : List ExpanderTag) (extension : GoStr) :
    Option ExpanderTag :=
  registered.find? (fun t => expanderMatcher t extension)

/-!
## Gatherer matchers (src/gather/http/http.go, src/gather/git/git.go)
-/

/-- `HTTPGatherer.Matcher` (http.go:147-155). -/
def httpMatcher (uri : GoStr) : Bool :=
  [gs "http://", gs "https://"].any fun p =>
    goStarts p uri
      && !(goContains uri (gs "github.com") || goContains uri (gs "gitlab.com")
            || goContains uri (gs "bitbucket.com"))

/-- `GitGatherer.Matcher` (git.go:63-84). -/
def gitMatcher (uri : GoStr) : Bool :=
  if [gs "git@", gs "git://", gs "git::"].any (fun p => goStarts p uri) then
    true
  else if goContains uri (gs "::") then
    false
  else if [gs "github.com", gs "gitlab.com", gs "bitbucket.org"].any
      (fun t => goContains uri t) then
    true
  else
    goEndsWith uri (gs ".git")

/-!
## OCI source normalization (src/gather/oci/oci.go)
-/

/-- `ociURLParse` (oci.go:131-141): take the part after the first `::` when
one occurs, then the part after the first `://` when one occurs. -/
def ociURLParse (source : GoStr) : GoStr :=
  let source :=
    if goContains source (gs "::") then (goSplit source (gs "::")).getD 1 []
    else source
  let r := goCut source (gs "://")
  if r.2.2 then r.2.1 else source

/-- The localhost rewrite of `OCIGatherer.Gather` (oci.go:58-60). -/
def ociRewriteLocalhost (source : GoStr) : GoStr :=
  if goContains source (gs "localhost") then
    goReplaceAll source (gs "localhost") (gs "127.0.0.1")
  else source

/-- The normalization `OCIGatherer.Gather` applies to its source string
before the reference is parsed and the registry is contacted
(oci.go:58-63). -/
def ociGatherNormalize (source : GoStr) : GoStr :=
  ociURLParse (ociRewriteLocalhost source)

/-- A parsed OCI artifact reference as produced by the registry client's
`registry.ParseReference`: registry host, repository, and tag/digest
reference component. -/
structure OCIRef where
  registry : GoStr
  repository : GoStr
  reference : GoStr
deriving DecidableEq, Repr

/-- The reference defaulting of `OCIGatherer.Gather` (oci.go:71-75): an empty
reference component becomes `"latest"`. -/
def ociDefaultReference (ref : OCIRef) : OCIRef :=
  if ref.reference = [] then { ref with reference := gs "latest" } else ref

/-!
## Metadata pinned URLs
(src/gather/git/git.go, src/unnamed/part_003, src/gather/http/http.go,
src/gather/file/file.go)
-/

/-- `GitMetadata.GetPinnedURL` (git.go:190-204); `latestCommit` is the
receiver's `LatestCommit` field. -/
def gitGetPinnedURL (latestCommit u : GoStr) : Except GoStr GoStr :=
  if u.length = 0 then .error (gs "empty URL")
  else if latestCommit = [] then .error (gs "latest commit not set")
  else
    let u := goTrimChain u [gs "git::", gs "git://", gs "https://"]
    let u :=
      if goStarts (gs "git@") u then
        goReplaceFirst ((goSplit u (gs "git@")).getD 1 []) (gs ":") (gs "/")
      else u
    .ok (gs "git::" ++ (goCut u (gs "?ref=")).1 ++ gs "?ref=" ++ latestCommit)

/-- `OCIMetadata.GetPinnedURL` (src/unnamed/part_003:133-148); `digest` is the
receiver's `Digest` field. -/
def ociGetPinnedURL (digest u : GoStr) : Except GoStr GoStr :=
  if u.length = 0 then .error (gs "empty URL")
  else if digest = [] then .error (gs "image digest not set")
  else
    let u := goTrimChain u [gs "oci::", gs "oci://", gs "https://"]
    let parts := goSplit u (gs "@")
    let u := if parts.length > 1 then parts.getD 0 [] else u
    .ok (gs "oci::" ++ u ++ gs "@" ++ digest)

/-- `HTTPMetadata.GetPinnedURL` (http.go:161-169). -/
def httpGetPinnedURL (u : GoStr) : Except GoStr GoStr :=
  if u.length = 0 then .error (gs "empty URL")
  else .ok (gs "http::" ++ goTrimChain u [gs "http://", gs "https://", gs "http::"])

/-- `FSMetadata.GetPinnedURL` (file.go:132-140). -/
def fsGetPinnedURL (u : GoStr) : Except GoStr GoStr :=
  if u.length = 0 then .error (gs "empty file path")
  else .ok (gs "file::" ++ goTrimChain u [gs "file::", gs "file://"])

/-!
## Magic sniffing (src/expand/expander.go)
-/

/-- The POSIX ustar magic bytes `"ustar"`. -/
def ustarBytes : List Nat := [117, 115, 116, 97, 114]

/-- Bool prefix test on byte lists. -/
def bytesStart : List Nat → List Nat → Bool
  | [], _ => true
  | _ :: _, [] => false
  | p :: ps, c :: cs => p == c && bytesStart ps cs

/-- `IsTarFile` (expander.go:90-121) on the byte contents of a readable file:
seek to offset 257, read up to 6 bytes, report false when fewer than 6 bytes
were available, otherwise test `bytes.HasPrefix(magic, []byte("ustar"))`. -/
def isTarFile (contents : List Nat) : Bool :=
  let magic := (contents.drop 257).take 6
  if magic.length < 6 then false
  else bytesStart ustarBytes magic

/-- Total declared payload of the headers that contribute to the tar
expander's size accounting: every header that is neither a pax extended
header nor a directory. -/
def tarPayload (hdrs : List TarHeader) : Nat :=
  (hdrs.map (fun h => if isExtHeader h ∨ h.typeflag = TypeFlag.dir then 0 else h.size)).sum

/-!
## Helper lemmas about the Go string primitives
-/

theorem goStarts_append_self (p t : GoStr) : goStarts p (p ++ t) = true := by
  induction p with
  | nil => rfl
  | cons c cs ih => simp [goStarts, ih]

theorem goCut_not_found (s pat : GoStr) (h : goContains s pat = false) :
    goCut s pat = (s, [], false) := by
  induction s with
  | nil =>
    simp [goContains] at h
    simp [goCut]
    cases pat with
    | nil => simp at h
    | cons p ps => simp [goStarts]
  | cons c rest ih =>
    simp [goContains] at h
    simp [goCut, h.1, ih h.2]

theorem goSplit_not_found (s sep : GoStr) (hne : sep ≠ [])
    (h : goContains s sep = false) : goSplit s sep = [s] := by
  unfold goSplit
  induction s with
  | nil => simp [goSplitAux]
  | cons c rest ih =>
    simp [goContains] at h
    simp [goSplitAux, h.1, hne]
    rw [show goSplitAux sep 0 rest = goSplit rest sep from rfl] at *
    rw [ih h.2]

theorem goSplitAux_skip (sep : GoStr) (n : Nat) (s : GoStr) :
    goSplitAux sep n s = goSplitAux sep 0 (s.drop n) := by
  induction n generalizing s with
  | zero => simp
  | succ m ih =>
    cases s with
    | nil => simp [goSplitAux]
    | cons c rest => simp [goSplitAux, ih]

theorem goReplaceAllAux_skip (old new : GoStr) (n : Nat) (s : GoStr) :
    goReplaceAllAux old new n s = goReplaceAllAux old new 0 (s.drop n) := by
  induction n generalizing s with
  | zero => simp
  | succ m ih =>
    cases s with
    | nil => simp [goReplaceAllAux]
    | cons c rest => simp [goReplaceAllAux, ih]

/-- An occurrence of `pat` cannot begin inside a block `A` none of whose
characters belongs to `pat`. -/
theorem goContains_append_out (A B pat : GoStr) (hne : pat ≠ [])
    (hdisj : ∀ a ∈ A, a ∉ pat) :
    goContains (A ++ B) pat = goContains B pat := by
  induction A with
  | nil => rfl
  | cons a A ih =>
    have h1 : goStarts pat (a :: (A ++ B)) = false := by
      cases pat with
      | nil => exact absurd rfl hne
      | cons p ps =>
        have : a ∉ p :: ps := hdisj a (by simp)
        have hpa : (p == a) = false := by
          simp only [beq_eq_false_iff_ne]
          intro he; exact this (he ▸ List.mem_cons_self p ps)
        simp [goStarts, hpa]
    simp [goContains, h1]
    exact ih (fun x hx => hdisj x (by simp [hx]))

theorem gs_localhost : gs "localhost" = ['l','o','c','a','l','h','o','s','t'] := rfl

theorem gs_ip : gs "127.0.0.1" = ['1','2','7','.','0','.','0','.','1'] := rfl

theorem lhStep_pos (c : Char) (rest : GoStr)
    (hm : goStarts ['l','o','c','a','l','h','o','s','t'] (c :: rest) = true) :
    goReplaceAll (c :: rest) ['l','o','c','a','l','h','o','s','t'] ['1','2','7','.','0','.','0','.','1']
      = ['1','2','7','.','0','.','0','.','1']
        ++ goReplaceAll (rest.drop 8) ['l','o','c','a','l','h','o','s','t'] ['1','2','7','.','0','.','0','.','1'] := by
  show goReplaceAllAux _ _ 0 _ = _
  rw [goReplaceAllAux]
  simp only [ne_eq, List.cons_ne_nil, not_false_eq_true, hm, and_self, if_true]
  rw [goReplaceAllAux_skip]
  rfl

theorem lhStep_neg (c : Char) (rest : GoStr)
    (hm : ¬ goStarts ['l','o','c','a','l','h','o','s','t'] (c :: rest) = true) :
    goReplaceAll (c :: rest) ['l','o','c','a','l','h','o','s','t'] ['1','2','7','.','0','.','0','.','1']
      = c :: goReplaceAll rest ['l','o','c','a','l','h','o','s','t'] ['1','2','7','.','0','.','0','.','1'] := by
  show goReplaceAllAux _ _ 0 _ = _
  rw [goReplaceAllAux]
  simp only [ne_eq, List.cons_ne_nil, not_false_eq_true, hm, and_false, if_false]
  rfl

/-- A non-empty block of characters drawn from `"localhost"` that prefixes the
rewritten string already prefixes the original string. -/
theorem lhTransfer (s t : GoStr) (hne : t ≠ [])
    (hsub : ∀ c ∈ t, c ∈ (['l','o','c','a','l','h','o','s','t'] : GoStr))
    (h : goStarts t (goReplaceAll s ['l','o','c','a','l','h','o','s','t'] ['1','2','7','.','0','.','0','.','1']) = true) :
    goStarts t s = true := by
  match s with
  | [] =>
    cases t with
    | nil => exact absurd rfl hne
    | cons t0 ts => simp [goReplaceAll, goReplaceAllAux, goStarts] at h
  | c :: rest =>
    cases t with
    | nil => exact absurd rfl hne
    | cons t0 ts =>
      by_cases hm : goStarts ['l','o','c','a','l','h','o','s','t'] (c :: rest) = true
      · rw [lhStep_pos c rest hm] at h
        have h10 : t0 ∈ (['l','o','c','a','l','h','o','s','t'] : GoStr) := hsub t0 (by simp)
        simp only [List.cons_append, goStarts, Bool.and_eq_true, beq_iff_eq] at h
        rw [h.1] at h10
        simp at h10
      · rw [lhStep_neg c rest hm] at h
        simp only [goStarts, Bool.and_eq_true] at h ⊢
        refine ⟨h.1, ?_⟩
        rcases ts with _ | ⟨u, us⟩
        · rfl
        · exact lhTransfer rest (u :: us) (by simp)
            (fun x hx => hsub x (List.mem_cons_of_mem t0 hx)) h.2
termination_by s.length
decreasing_by
  simp only [List.length_cons, Nat.lt_succ_iff, Nat.le_refl]

/-- After `strings.ReplaceAll(s, "localhost", "127.0.0.1")` no occurrence of
`"localhost"` remains. -/
theorem lhGone (s : GoStr) :
    goContains (goReplaceAll s ['l','o','c','a','l','h','o','s','t'] ['1','2','7','.','0','.','0','.','1'])
      ['l','o','c','a','l','h','o','s','t'] = false := by
  match s with
  | [] => decide
  | c :: rest =>
    by_cases hm : goStarts ['l','o','c','a','l','h','o','s','t'] (c :: rest) = true
    · rw [lhStep_pos c rest hm,
        goContains_append_out _ _ _ (by decide) (by decide)]
      exact lhGone (rest.drop 8)
    · rw [lhStep_neg c rest hm]
      have h2 := lhGone rest
      simp only [goContains, h2, Bool.or_eq_false_iff, and_true]
      by_contra hp
      simp only [Bool.not_eq_false] at hp
      simp only [goStarts, Bool.and_eq_true, beq_iff_eq] at hp
      have htr := lhTransfer rest ['o','c','a','l','h','o','s','t'] (by decide) (by decide) hp.2
      apply hm
      simp only [goStarts, Bool.and_eq_true, beq_iff_eq]
      exact ⟨hp.1, htr⟩
termination_by s.length
decreasing_by
  · simp only [List.length_cons, List.length_drop]
    omega
  · simp only [List.length_cons, Nat.lt_succ_iff, Nat.le_refl]

/-!
## Lemmas about the expansion engine
-/

theorem untarLoop_written_inside (dst : GoStr) (fsl fll : Int) :
    ∀ (hdrs : List TarHeader) (fc : Int) (ts : Nat) (p : GoStr),
      p ∈ (untarLoop dst fsl fll hdrs fc ts).written →
      insideDst dst (goClean p) = true := by
  intro hdrs
  induction hdrs with
  | nil =>
    intro fc ts p hp
    simp [untarLoop] at hp
  | cons h rest ih =>
    intro fc ts p hp
    simp only [untarLoop] at hp
    by_cases hcnt : fll > 0 ∧ (if fll > 0 then fc + 1 else fc) > fll
    · rw [if_pos hcnt] at hp
      simp at hp
    · rw [if_neg hcnt] at hp
      by_cases hext : isExtHeader h = true
      · rw [if_pos hext] at hp
        exact ih _ _ _ hp
      · rw [if_neg hext] at hp
        by_cases hchk : insideDst dst (goClean (goJoin dst h.name)) = true
        · rw [if_neg (not_not_intro hchk)] at hp
          by_cases hdir : h.typeflag = TypeFlag.dir
          · rw [if_neg (fun hc => hc.1 hdir), if_pos hdir] at hp
            exact ih _ _ _ hp
          · by_cases hsz : fsl > 0 ∧ ((if h.typeflag = TypeFlag.dir then ts else ts + h.size : Nat) : Int) > fsl
            · rw [if_pos ⟨hdir, hsz.1, hsz.2⟩] at hp
              simp at hp
            · rw [if_neg (fun hc => hsz ⟨hc.2.1, hc.2.2⟩), if_neg hdir] at hp
              simp only [List.mem_cons] at hp
              rcases hp with rfl | hp
              · exact hchk
              · exact ih _ _ _ hp
        · rw [if_pos (by simpa using hchk)] at hp
          simp at hp

theorem untarLoop_dirs_inside (dst : GoStr) (fsl fll : Int) :
    ∀ (hdrs : List TarHeader) (fc : Int) (ts : Nat) (p : GoStr),
      p ∈ (untarLoop dst fsl fll hdrs fc ts).dirs →
      insideDst dst (goClean p) = true := by
  intro hdrs
  induction hdrs with
  | nil =>
    intro fc ts p hp
    simp [untarLoop] at hp
  | cons h rest ih =>
    intro fc ts p hp
    simp only [untarLoop] at hp
    by_cases hcnt : fll > 0 ∧ (if fll > 0 then fc + 1 else fc) > fll
    · rw [if_pos hcnt] at hp
      simp at hp
    · rw [if_neg hcnt] at hp
      by_cases hext : isExtHeader h = true
      · rw [if_pos hext] at hp
        exact ih _ _ _ hp
      · rw [if_neg hext] at hp
        by_cases hchk : insideDst dst (goClean (goJoin dst h.name)) = true
        · rw [if_neg (not_not_intro hchk)] at hp
          by_cases hdir : h.typeflag = TypeFlag.dir
          · rw [if_neg (fun hc => hc.1 hdir), if_pos hdir] at hp
            simp only [List.mem_cons] at hp
            rcases hp with rfl | hp
            · exact hchk
            · exact ih _ _ _ hp
          · by_cases hsz : fsl > 0 ∧ ((if h.typeflag = TypeFlag.dir then ts else ts + h.size : Nat) : Int) > fsl
            · rw [if_pos ⟨hdir, hsz.1, hsz.2⟩] at hp
              simp at hp
            · rw [if_neg (fun hc => hsz ⟨hc.2.1, hc.2.2⟩), if_neg hdir] at hp
              exact ih _ _ _ hp
        · rw [if_pos (by simpa using hchk)] at hp
          simp at hp

/-- With both limits disabled, reaching the first offending header aborts
with exactly the "illegal file path" error for its joined path. -/
theorem untarLoop_first_offender (dst : GoStr) :
    ∀ (pre : List TarHeader) (h : TarHeader) (post : List TarHeader) (fc : Int) (ts : Nat),
      (∀ g ∈ pre, isExtHeader g = true ∨ insideDst dst (goClean (goJoin dst g.name)) = true) →
      isExtHeader h = false →
      insideDst dst (goClean (goJoin dst h.name)) = false →
      (untarLoop dst 0 0 (pre ++ h :: post) fc ts).err
        = some (.illegalPath (goJoin dst h.name)) := by
  intro pre
  induction pre with
  | nil =>
    intro h post fc ts _ hext hbad
    simp only [List.nil_append, untarLoop]
    rw [if_neg (by simp), if_neg (by simp [hext]), if_pos (by simp [hbad])]
  | cons g pre ih =>
    intro h post fc ts hpre hext hbad
    simp only [List.cons_append, untarLoop]
    rw [if_neg (by simp)]
    rcases hpre g (by simp) with hg | hg
    · rw [if_pos hg]
      exact ih h post _ _ (fun x hx => hpre x (by simp [hx])) hext hbad
    · by_cases hgext : isExtHeader g = true
      · rw [if_pos hgext]
        exact ih h post _ _ (fun x hx => hpre x (by simp [hx])) hext hbad
      · rw [if_neg hgext, if_neg (not_not_intro hg), if_neg (by simp)]
        by_cases hdir : g.typeflag = TypeFlag.dir
        · rw [if_pos hdir]
          exact ih h post _ _ (fun x hx => hpre x (by simp [hx])) hext hbad
        · rw [if_neg hdir]
          exact ih h post _ _ (fun x hx => hpre x (by simp [hx])) hext hbad

/-- A positive `FilesLimit` bounds the number of headers processed: an
error-free run saw at most `filesLimit - filesCount` headers. -/
theorem untarLoop_count_bound (dst : GoStr) (fsl fll : Int) (hfll : fll > 0) :
    ∀ (hdrs : List TarHeader) (fc : Int) (ts : Nat),
      fc ≤ fll →
      (untarLoop dst fsl fll hdrs fc ts).err = none →
      fc + hdrs.length ≤ fll := by
  intro hdrs
  induction hdrs with
  | nil =>
    intro fc ts hfc _
    simpa using hfc
  | cons h rest ih =>
    intro fc ts hfc herr
    simp only [untarLoop] at herr
    by_cases hcnt : fll > 0 ∧ (if fll > 0 then fc + 1 else fc) > fll
    · rw [if_pos hcnt] at herr
      simp at herr
    · rw [if_neg hcnt] at herr
      rw [if_pos hfll] at hcnt
      have hle : fc + 1 ≤ fll := by omega
      by_cases hext : isExtHeader h = true
      · rw [if_pos hext, if_pos hfll] at herr
        have := ih _ _ hle herr
        simp only [List.length_cons]
        omega
      · rw [if_neg hext] at herr
        by_cases hchk : insideDst dst (goClean (goJoin dst h.name)) = true
        · rw [if_neg (not_not_intro hchk)] at herr
          by_cases hdir : h.typeflag = TypeFlag.dir
          · rw [if_neg (fun hc => hc.1 hdir), if_pos hdir, if_pos hfll] at herr
            have := ih _ _ hle herr
            simp only [List.length_cons]
            omega
          · by_cases hsz : fsl > 0 ∧ ((if h.typeflag = TypeFlag.dir then ts else ts + h.size : Nat) : Int) > fsl
            · rw [if_pos ⟨hdir, hsz.1, hsz.2⟩] at herr
              simp at herr
            · rw [if_neg (fun hc => hsz ⟨hc.2.1, hc.2.2⟩), if_neg hdir, if_pos hfll] at herr
              have := ih _ _ hle herr
              simp only [List.length_cons]
              omega
        · rw [if_pos (by simpa using hchk)] at herr
          simp at herr

/-- A positive `FileSizeLimit` bounds the cumulative declared payload: an
error-free run of the loop keeps the running total within the limit. -/
theorem untarLoop_size_bound (dst : GoStr) (fsl fll : Int) (hfsl : fsl > 0) :
    ∀ (hdrs : List TarHeader) (fc : Int) (ts : Nat),
      (ts : Int) ≤ fsl →
      (untarLoop dst fsl fll hdrs fc ts).err = none →
      (ts : Int) + tarPayload hdrs ≤ fsl := by
  intro hdrs
  induction hdrs with
  | nil =>
    intro fc ts hts _
    simpa [tarPayload] using hts
  | cons h rest ih =>
    intro fc ts hts herr
    simp only [untarLoop] at herr
    by_cases hcnt : fll > 0 ∧ (if fll > 0 then fc + 1 else fc) > fll
    · rw [if_pos hcnt] at herr
      simp at herr
    · rw [if_neg hcnt] at herr
      by_cases hext : isExtHeader h = true
      · rw [if_pos hext] at herr
        have hrec := ih _ _ hts herr
        have hpay : tarPayload (h :: rest) = tarPayload rest := by
          simp [tarPayload, hext]
        rw [hpay]
        exact hrec
      · rw [if_neg hext] at herr
        by_cases hchk : insideDst dst (goClean (goJoin dst h.name)) = true
        · rw [if_neg (not_not_intro hchk)] at herr
          by_cases hdir : h.typeflag = TypeFlag.dir
          · rw [if_neg (fun hc => hc.1 hdir), if_pos hdir] at herr
            rw [if_pos hdir] at herr
            have := ih _ _ hts herr
            have hpay : tarPayload (h :: rest) = tarPayload rest := by
              simp [tarPayload, hdir]
            rw [hpay]
            exact this
          · by_cases hsz : fsl > 0 ∧ ((if h.typeflag = TypeFlag.dir then ts else ts + h.size : Nat) : Int) > fsl
            · rw [if_pos ⟨hdir, hsz.1, hsz.2⟩] at herr
              simp at herr
            · rw [if_neg (fun hc => hsz ⟨hc.2.1, hc.2.2⟩), if_neg hdir, if_neg hdir] at herr
              have hlt : ((ts + h.size : Nat) : Int) ≤ fsl := by
                by_contra hgt
                exact hsz ⟨hfsl, by simpa [hdir] using hgt⟩
              have := ih _ _ hlt herr
              have hpay : tarPayload (h :: rest) = h.size + tarPayload rest := by
                simp [tarPayload, hext, hdir]
              rw [hpay]
              push_cast at this ⊢
              omega
        · rw [if_pos (by simpa using hchk)] at herr
          simp at herr

/-- With `FilesLimit` disabled, removing the pax extended headers from the
stream does not change the loop's outcome at all: they produce no filesystem
entries and contribute nothing to size accounting. -/
theorem untarLoop_filter_ext (dst : GoStr) (fsl : Int) :
    ∀ (hdrs : List TarHeader) (fc : Int) (ts : Nat),
      untarLoop dst fsl 0 (hdrs.filter (fun h => !isExtHeader h)) fc ts
        = untarLoop dst fsl 0 hdrs fc ts := by
  intro hdrs
  induction hdrs with
  | nil => intro fc ts; rfl
  | cons h rest ih =>
    intro fc ts
    have hff : ¬ ((0 : Int) > 0) := by omega
    by_cases hext : isExtHeader h = true
    · rw [show (h :: rest).filter (fun h => !isExtHeader h)
          = rest.filter (fun h => !isExtHeader h) by simp [List.filter, hext]]
      rw [ih]
      conv_rhs => rw [untarLoop]
      rw [if_neg (fun hc => hff hc.1), if_pos hext, if_neg hff]
    · rw [show (h :: rest).filter (fun h => !isExtHeader h)
          = h :: rest.filter (fun h => !isExtHeader h) by simp [List.filter, hext]]
      simp only [untarLoop]
      simp only [if_neg hff]
      have hc0 : ¬ ((0 : Int) > 0 ∧ fc > 0) := fun hc => hff hc.1
      simp only [if_neg hc0, if_neg hext]
      by_cases hchk : insideDst dst (goClean (goJoin dst h.name)) = true
      · simp only [if_neg (not_not_intro hchk)]
        by_cases hdir : h.typeflag = TypeFlag.dir
        · have hns : ¬ (h.typeflag ≠ TypeFlag.dir ∧ fsl > 0
              ∧ ((if h.typeflag = TypeFlag.dir then ts else ts + h.size : Nat) : Int) > fsl) :=
            fun hc => hc.1 hdir
          simp only [if_neg hns, if_pos hdir, ih]
        · by_cases hsz : fsl > 0
              ∧ ((if h.typeflag = TypeFlag.dir then ts else ts + h.size : Nat) : Int) > fsl
          · have hps : h.typeflag ≠ TypeFlag.dir ∧ fsl > 0
                ∧ ((if h.typeflag = TypeFlag.dir then ts else ts + h.size : Nat) : Int) > fsl :=
              ⟨hdir, hsz.1, hsz.2⟩
            simp only [if_pos hps]
          · have hns : ¬ (h.typeflag ≠ TypeFlag.dir ∧ fsl > 0
                ∧ ((if h.typeflag = TypeFlag.dir then ts else ts + h.size : Nat) : Int) > fsl) :=
              fun hc => hsz ⟨hc.2.1, hc.2.2⟩
            simp only [if_neg hns, if_neg hdir, ih]
      · simp only [if_pos (show ¬ insideDst dst (goClean (goJoin dst h.name)) = true
          by simpa using hchk)]

/-- Pax extended headers are counted against a positive `FilesLimit`: a
stream of nothing but extended headers still trips the limit. -/
theorem untarLoop_allext_count (dst : GoStr) (fsl fll : Int) (hfll : fll > 0) :
    ∀ (hdrs : List TarHeader) (fc : Int) (ts : Nat),
      (∀ g ∈ hdrs, isExtHeader g = true) →
      fc ≤ fll → fc + hdrs.length > fll →
      (untarLoop dst fsl fll hdrs fc ts).err = some .tooManyFiles := by
  intro hdrs
  induction hdrs with
  | nil =>
    intro fc ts _ hfc hgt
    simp at hgt
    omega
  | cons h rest ih =>
    intro fc ts hall hfc hgt
    simp only [untarLoop]
    by_cases hcnt : fc + 1 > fll
    · rw [if_pos (by rw [if_pos hfll]; exact ⟨hfll, hcnt⟩)]
    · rw [if_neg (by rw [if_pos hfll]; exact fun hc => hcnt hc.2),
        if_pos (hall h (by simp)), if_pos hfll]
      refine ih _ _ (fun x hx => hall x (by simp [hx])) (by omega) ?_
      simp only [List.length_cons] at hgt
      omega

theorem zipCopyLoop_nopos (lim : Int) (name : GoStr) (hlim : ¬ lim > 0) :
    ∀ (chunks : List Nat) (tb : Nat), zipCopyLoop lim name chunks tb = none := by
  intro chunks
  induction chunks with
  | nil => intro tb; rfl
  | cons n rest ih =>
    intro tb
    simp only [zipCopyLoop]
    by_cases hn : n > 0
    · rw [if_pos hn, if_neg (fun hc => hlim hc.1)]
      exact ih _
    · rw [if_neg hn]
      exact ih _

/-- An error-free copy of one zip entry kept the running per-entry total
within a positive limit. -/
theorem zipCopyLoop_none_bound (lim : Int) (name : GoStr) (hlim : lim > 0) :
    ∀ (chunks : List Nat) (tb : Nat),
      (tb : Int) ≤ lim →
      zipCopyLoop lim name chunks tb = none →
      (tb : Int) + chunks.sum ≤ lim := by
  intro chunks
  induction chunks with
  | nil =>
    intro tb htb _
    simpa using htb
  | cons n rest ih =>
    intro tb htb hnone
    simp only [zipCopyLoop] at hnone
    by_cases hn : n > 0
    · rw [if_pos hn] at hnone
      by_cases hov : lim > 0 ∧ ((tb + n : Nat) : Int) > lim
      · rw [if_pos hov] at hnone
        simp at hnone
      · rw [if_neg hov] at hnone
        have hle : ((tb + n : Nat) : Int) ≤ lim := by
          by_contra hgt
          exact hov ⟨hlim, by omega⟩
        have := ih _ hle hnone
        rw [List.sum_cons]
        push_cast at this ⊢
        omega
    · rw [if_neg hn] at hnone
      have hn0 : n = 0 := by omega
      have := ih _ htb hnone
      subst hn0
      push_cast at this ⊢
      simpa using this

theorem zipLoop_written_inside (lim : Int) (dst : GoStr) :
    ∀ (entries : List ZipEntry) (p : GoStr),
      p ∈ (zipLoop lim dst entries).written →
      insideDst dst p = true := by
  intro entries
  induction entries with
  | nil =>
    intro p hp
    simp [zipLoop] at hp
  | cons f rest ih =>
    intro p hp
    simp only [zipLoop] at hp
    by_cases hpre : lim > 0 ∧ (f.declaredSize : Int) > lim
    · rw [if_pos hpre] at hp
      simp at hp
    · rw [if_neg hpre] at hp
      by_cases hchk : insideDst dst (goJoin dst f.name) = true
      · rw [if_neg (not_not_intro hchk)] at hp
        by_cases hdir : f.isDir = true
        · rw [if_pos hdir] at hp
          exact ih _ hp
        · rw [if_neg hdir] at hp
          cases hcp : zipCopyLoop lim f.name f.chunks 0 with
          | some e =>
            rw [hcp] at hp
            simp at hp
            rw [hp]
            exact hchk
          | none =>
            rw [hcp] at hp
            simp only [List.mem_cons] at hp
            rcases hp with rfl | hp
            · exact hchk
            · exact ih _ hp
      · rw [if_pos (by simpa using hchk)] at hp
        simp at hp

theorem zipLoop_dirs_inside (lim : Int) (dst : GoStr) :
    ∀ (entries : List ZipEntry) (p : GoStr),
      p ∈ (zipLoop lim dst entries).dirs →
      insideDst dst p = true := by
  intro entries
  induction entries with
  | nil =>
    intro p hp
    simp [zipLoop] at hp
  | cons f rest ih =>
    intro p hp
    simp only [zipLoop] at hp
    by_cases hpre : lim > 0 ∧ (f.declaredSize : Int) > lim
    · rw [if_pos hpre] at hp
      simp at hp
    · rw [if_neg hpre] at hp
      by_cases hchk : insideDst dst (goJoin dst f.name) = true
      · rw [if_neg (not_not_intro hchk)] at hp
        by_cases hdir : f.isDir = true
        · rw [if_pos hdir] at hp
          simp only [List.mem_cons] at hp
          rcases hp with rfl | hp
          · exact hchk
          · exact ih _ hp
        · rw [if_neg hdir] at hp
          cases hcp : zipCopyLoop lim f.name f.chunks 0 with
          | some e =>
            rw [hcp] at hp
            simp at hp
          | none =>
            rw [hcp] at hp
            exact ih _ hp
      · rw [if_pos (by simpa using hchk)] at hp
        simp at hp

/-- With the size limit disabled, reaching the first entry whose joined path
escapes the destination aborts with exactly the "illegal file path" error. -/
theorem zipLoop_first_offender (dst : GoStr) :
    ∀ (pre : List ZipEntry) (f : ZipEntry) (post : List ZipEntry),
      (∀ g ∈ pre, insideDst dst (goJoin dst g.name) = true) →
      insideDst dst (goJoin dst f.name) = false →
      (zipLoop 0 dst (pre ++ f :: post)).err = some (.illegalPath (goJoin dst f.name)) := by
  intro pre
  induction pre with
  | nil =>
    intro f post _ hbad
    simp only [List.nil_append, zipLoop]
    rw [if_neg (by simp), if_pos (by simp [hbad])]
  | cons g pre ih =>
    intro f post hpre hbad
    simp only [List.cons_append, zipLoop]
    rw [if_neg (by simp), if_neg (not_not_intro (hpre g (by simp)))]
    by_cases hdir : g.isDir = true
    · rw [if_pos hdir]
      exact ih f post (fun x hx => hpre x (by simp [hx])) hbad
    · rw [if_neg hdir, zipCopyLoop_nopos 0 g.name (by omega)]
      exact ih f post (fun x hx => hpre x (by simp [hx])) hbad

/-- In an error-free run with a positive limit, every entry passed the
pre-flight declared-size check and every file entry's actual copied bytes
stayed within the limit — per entry, not cumulatively. -/
theorem zipLoop_entry_bounds (lim : Int) (dst : GoStr) (hlim : lim > 0) :
    ∀ (entries : List ZipEntry),
      (zipLoop lim dst entries).err = none →
      ∀ f ∈ entries,
        (f.declaredSize : Int) ≤ lim
          ∧ (f.isDir = false → (f.chunks.sum : Int) ≤ lim) := by
  intro entries
  induction entries with
  | nil =>
    intro _ f hf
    simp at hf
  | cons g rest ih =>
    intro herr f hf
    simp only [zipLoop] at herr
    by_cases hpre : lim > 0 ∧ (g.declaredSize : Int) > lim
    · rw [if_pos hpre] at herr
      simp at herr
    · rw [if_neg hpre] at herr
      have hgd : (g.declaredSize : Int) ≤ lim := by
        by_contra hgt
        exact hpre ⟨hlim, by omega⟩
      by_cases hchk : insideDst dst (goJoin dst g.name) = true
      · rw [if_neg (not_not_intro hchk)] at herr
        by_cases hdir : g.isDir = true
        · rw [if_pos hdir] at herr
          rcases List.mem_cons.mp hf with rfl | hf
          · exact ⟨hgd, fun hc => absurd hdir (by simp [hc])⟩
          · exact ih herr f hf
        · rw [if_neg hdir] at herr
          cases hcp : zipCopyLoop lim g.name g.chunks 0 with
          | some e =>
            rw [hcp] at herr
            simp at herr
          | none =>
            rw [hcp] at herr
            rcases List.mem_cons.mp hf with rfl | hf
            · refine ⟨hgd, fun _ => ?_⟩
              have := zipCopyLoop_none_bound lim f.name hlim f.chunks 0 (by omega) hcp
              simpa using this
            · exact ih herr f hf
      · rw [if_pos (by simpa using hchk)] at herr
        simp at herr

/-!
## Claims
-/

/-- C6: `IsTarFile` is documented (and specified) to accept exactly
`"ustar"` followed by a NUL or space byte at offset 257, but the code tests
only the five bytes `"ustar"`: a 263-byte file whose byte 262 is `88`
(`'X'`, neither NUL nor space) is accepted. -/
theorem c6_is_tar_file_sixth_byte_bug :
    isTarFile (List.replicate 257 0 ++ [117, 115, 116, 97, 114, 88]) = true
      ∧ (List.replicate 257 0 ++ [117, 115, 116, 97, 114, 88]).drop 257
          = [117, 115, 116, 97, 114, 88]
      ∧ (88 ≠ 0 ∧ 88 ≠ 32) := by
  refine ⟨by decide, by decide, by decide, by decide⟩

/-- C2 counterexample: with `FileSizeLimit = 1`, the zip expander processes
two one-byte entries — cumulative decompressed total 2, exceeding the limit —
without any error, so the limit is not cumulative across entries. -/
theorem c2_size_limit_counterexample :
    (ZipExpander.expand ⟨1, 0⟩ (gs "/d")
        [⟨gs "a", false, 1, [1]⟩, ⟨gs "b", false, 1, [1]⟩]).err = none
      ∧ (ZipExpander.expand ⟨1, 0⟩ (gs "/d")
          [⟨gs "a", false, 1, [1]⟩, ⟨gs "b", false, 1, [1]⟩]).written.length = 2
      ∧ ([1, 1] : List Nat).sum > 1 := by
  refine ⟨by decide, by decide, by decide⟩

/-- C3 counterexample: with `FilesLimit = 1`, the zip expander processes two
entries without any error: `ZipExpander` never reads its `FilesLimit`. -/
theorem c3_files_limit_counterexample :
    (ZipExpander.expand ⟨0, 1⟩ (gs "/e")
        [⟨gs "a", false, 1, [1]⟩, ⟨gs "b", false, 1, [1]⟩]).err = none
      ∧ (ZipExpander.expand ⟨0, 1⟩ (gs "/e")
          [⟨gs "a", false, 1, [1]⟩, ⟨gs "b", false, 1, [1]⟩]).written.length = 2 := by
  refine ⟨by decide, by decide⟩

/-- C4 counterexample: a stream whose only header is a pax global extended
header is treated by `untar` as a successful no-op — no "tar is empty" error
is raised, because the extended header was counted as a yielded header. -/
theorem c4_empty_tar_counterexample :
    untar (gs "/d") 0 0 [⟨gs "g", TypeFlag.xGlobalHeader, 0⟩]
      = ⟨[], [], none⟩ := by
  decide

/-- C5 counterexample: with `FilesLimit = 1`, a stream of one pax global
header followed by one regular file aborts with the too-many-files error even
though only one real file is present, while the same single file without the
pax header succeeds: pax headers are counted against `FilesLimit`. -/
theorem c5_pax_accounting_counterexample :
    (untar (gs "/d") 0 1
        [⟨gs "g", TypeFlag.xGlobalHeader, 0⟩, ⟨gs "a", TypeFlag.reg, 0⟩]).err
      = some .tooManyFiles
      ∧ (untar (gs "/d") 0 1 [⟨gs "a", TypeFlag.reg, 0⟩]).err = none := by
  refine ⟨by decide, by decide⟩

/-- C8 counterexample: `https://bitbucket.org/team/repo.git` has a host the
git matcher recognizes (bitbucket.org), yet the HTTP matcher accepts it,
because the HTTP matcher excludes the substring "bitbucket.com", not the
domain bitbucket.org. -/
theorem c8_http_matcher_counterexample :
    httpMatcher (gs "https://bitbucket.org/team/repo.git") = true
      ∧ gitMatcher (gs "https://bitbucket.org/team/repo.git") = true := by
  refine ⟨by decide, by decide⟩

/-- C8 (amended): the HTTP matcher accepts exactly the URIs that begin with
`http://` or `https://` and do not contain any of the substrings
`github.com`, `gitlab.com`, `bitbucket.com` anywhere in the URI (note: a
substring test on the whole URI, and `bitbucket.com` rather than the
`bitbucket.org` domain the git matcher recognizes). -/
theorem c8_http_matcher :
    ∀ uri : GoStr,
      httpMatcher uri
        = ((goStarts (gs "http://") uri || goStarts (gs "https://") uri)
            && !(goContains uri (gs "github.com")
                  || goContains uri (gs "gitlab.com")
                  || goContains uri (gs "bitbucket.com"))) := by
  intro uri
  simp only [httpMatcher, List.any_cons, List.any_nil, Bool.or_false]
  cases h1 : goStarts (gs "http://") uri <;>
    cases h2 : goStarts (gs "https://") uri <;> simp

/-- C4 (amended): a tar stream that yields zero headers before EOF fails with
the "tar is empty" error and writes nothing; a stream whose only yielded
header is a pax extended header counts as one yielded header, so it completes
as a successful no-op (no error, zero files, zero directories). -/
theorem c4_empty_tar :
    (∀ (dst : GoStr) (fsl fll : Int),
        untar dst fsl fll [] = ⟨[], [], some .emptyTar⟩)
      ∧ (∀ (dst : GoStr) (fsl fll : Int) (h : TarHeader),
          isExtHeader h = true → untar dst fsl fll [h] = ⟨[], [], none⟩) := by
  constructor
  · intro dst fsl fll
    rfl
  · intro dst fsl fll h hext
    show untarLoop dst fsl fll [h] 0 0 = ⟨[], [], none⟩
    simp only [untarLoop]
    rw [if_neg ?hc, if_pos hext]
    case hc =>
      intro hc
      rcases hc with ⟨hfll, hgt⟩
      rw [if_pos hfll] at hgt
      omega

/-- C3 (amended): a positive `FilesLimit` bounds the number of headers the
tar-family expander processes — an error-free run saw at most `FilesLimit`
headers — while the zip expander ignores its `FilesLimit` field entirely:
its outcome is identical for any two values of the field. -/
theorem c3_files_limit_scope :
    (∀ (dst : GoStr) (fsl fll : Int) (hdrs : List TarHeader),
        fll > 0 → (untar dst fsl fll hdrs).err = none →
        (hdrs.length : Int) ≤ fll)
      ∧ (∀ (fsl fl1 fl2 : Int) (dst : GoStr) (entries : List ZipEntry),
          ZipExpander.expand ⟨fsl, fl1⟩ dst entries
            = ZipExpander.expand ⟨fsl, fl2⟩ dst entries) := by
  constructor
  · intro dst fsl fll hdrs hfll herr
    cases hdrs with
    | nil => simp only [List.length_nil, Int.natCast_zero]; omega
    | cons h rest =>
      have hb := untarLoop_count_bound dst fsl fll hfll (h :: rest) 0 0
        (by omega) herr
      omega
  · intro fsl fl1 fl2 dst entries
    rfl

/-- C1: for both the tar-family and the zip expander, every file written and
every directory created lies strictly inside the cleaned destination, and
reaching an entry whose cleaned join with the destination escapes it aborts
with the "illegal file path" error for that join, before that entry is
written (shown here with the limits disabled so no other abort precedes). -/
theorem c1_path_containment :
    (∀ (dst : GoStr) (fsl fll : Int) (hdrs : List TarHeader),
        (∀ p ∈ (untar dst fsl fll hdrs).written, insideDst dst (goClean p) = true)
          ∧ (∀ p ∈ (untar dst fsl fll hdrs).dirs, insideDst dst (goClean p) = true))
      ∧ (∀ (fsl fll : Int) (dst : GoStr) (entries : List ZipEntry),
          (∀ p ∈ (ZipExpander.expand ⟨fsl, fll⟩ dst entries).written, insideDst dst p = true)
            ∧ (∀ p ∈ (ZipExpander.expand ⟨fsl, fll⟩ dst entries).dirs, insideDst dst p = true))
      ∧ (∀ (dst : GoStr) (pre : List TarHeader) (h : TarHeader) (post : List TarHeader),
          (∀ g ∈ pre, isExtHeader g = true ∨ insideDst dst (goClean (goJoin dst g.name)) = true) →
          isExtHeader h = false →
          insideDst dst (goClean (goJoin dst h.name)) = false →
          (untar dst 0 0 (pre ++ h :: post)).err = some (.illegalPath (goJoin dst h.name))
            ∧ goJoin dst h.name ∉ (untar dst 0 0 (pre ++ h :: post)).written)
      ∧ (∀ (fll : Int) (dst : GoStr) (pre : List ZipEntry) (f : ZipEntry) (post : List ZipEntry),
          (∀ g ∈ pre, insideDst dst (goJoin dst g.name) = true) →
          insideDst dst (goJoin dst f.name) = false →
          (ZipExpander.expand ⟨0, fll⟩ dst (pre ++ f :: post)).err
              = some (.illegalPath (goJoin dst f.name))
            ∧ goJoin dst f.name ∉ (ZipExpander.expand ⟨0, fll⟩ dst (pre ++ f :: post)).written) := by
  refine ⟨?_, ?_, ?_, ?_⟩
  · intro dst fsl fll hdrs
    cases hdrs with
    | nil => constructor <;> (intro p hp; simp [untar] at hp)
    | cons h rest =>
      constructor
      · intro p hp
        exact untarLoop_written_inside dst fsl fll (h :: rest) 0 0 p hp
      · intro p hp
        exact untarLoop_dirs_inside dst fsl fll (h :: rest) 0 0 p hp
  · intro fsl fll dst entries
    exact ⟨fun p hp => zipLoop_written_inside fsl dst entries p hp,
      fun p hp => zipLoop_dirs_inside fsl dst entries p hp⟩
  · intro dst pre h post hpre hext hbad
    have hstep : untar dst 0 0 (pre ++ h :: post)
        = untarLoop dst 0 0 (pre ++ h :: post) 0 0 := by
      rw [untar, if_neg (by simp)]
    constructor
    · rw [hstep]
      exact untarLoop_first_offender dst pre h post 0 0 hpre hext hbad
    · intro hmem
      rw [hstep] at hmem
      have := untarLoop_written_inside dst 0 0 (pre ++ h :: post) 0 0 _ hmem
      rw [this] at hbad
      exact absurd hbad (by simp)
  · intro fll dst pre f post hpre hbad
    constructor
    · exact zipLoop_first_offender dst pre f post hpre hbad
    · intro hmem
      have := zipLoop_written_inside 0 dst (pre ++ f :: post) _ hmem
      rw [this] at hbad
      exact absurd hbad (by simp)

/-- C2 (amended): for the tar family a positive `FileSizeLimit` is cumulative
— an error-free run keeps the total declared payload of all processed
non-directory entries within the limit, and a prefix of entries whose payload
already exceeds the limit makes an error unavoidable — while the zip expander
bounds each entry individually: an error-free run means every entry's
declared size and every file entry's actually-copied bytes are each within
the limit, with no constraint on their sum. -/
theorem c2_size_limit_scope :
    (∀ (dst : GoStr) (fsl fll : Int) (hdrs : List TarHeader),
        fsl > 0 → (untar dst fsl fll hdrs).err = none →
        (tarPayload hdrs : Int) ≤ fsl)
      ∧ (∀ (dst : GoStr) (fsl fll : Int) (pre post : List TarHeader),
          fsl > 0 → (tarPayload pre : Int) > fsl →
          (untar dst fsl fll (pre ++ post)).err ≠ none)
      ∧ (∀ (lim fll : Int) (dst : GoStr) (entries : List ZipEntry),
          lim > 0 → (ZipExpander.expand ⟨lim, fll⟩ dst entries).err = none →
          ∀ f ∈ entries,
            (f.declaredSize : Int) ≤ lim
              ∧ (f.isDir = false → (f.chunks.sum : Int) ≤ lim)) := by
  refine ⟨?_, ?_, ?_⟩
  · intro dst fsl fll hdrs hfsl herr
    cases hdrs with
    | nil => simp [tarPayload]; omega
    | cons h rest =>
      have := untarLoop_size_bound dst fsl fll hfsl (h :: rest) 0 0 (by omega) herr
      omega
  · intro dst fsl fll pre post hfsl hover herr
    have hpay : tarPayload (pre ++ post) = tarPayload pre + tarPayload post := by
      simp [tarPayload]
    cases hd : pre ++ post with
    | nil =>
      rw [hd] at herr
      simp [untar] at herr
    | cons h rest =>
      rw [hd] at herr
      have hb := untarLoop_size_bound dst fsl fll hfsl (h :: rest) 0 0 (by omega) herr
      rw [← hd, hpay] at hb
      push_cast at hb
      omega
  · intro lim fll dst entries hlim herr
    exact zipLoop_entry_bounds lim dst hlim entries herr

/-- C5 (amended): pax extended headers are consumed without producing any
filesystem entry and without contributing to size accounting — with the
files limit disabled, deleting them from the stream changes neither the files
written nor the directories created nor (for a stream that still has real
headers) the outcome — but they are counted against a positive `FilesLimit`:
a long enough stream of nothing but pax headers aborts with the
too-many-files error. -/
theorem c5_pax_accounting :
    (∀ (dst : GoStr) (fsl : Int) (hdrs : List TarHeader),
        (untar dst fsl 0 hdrs).written
            = (untar dst fsl 0 (hdrs.filter (fun h => !isExtHeader h))).written
          ∧ (untar dst fsl 0 hdrs).dirs
            = (untar dst fsl 0 (hdrs.filter (fun h => !isExtHeader h))).dirs
          ∧ (hdrs.filter (fun h => !isExtHeader h) ≠ [] →
              (untar dst fsl 0 hdrs).err
                = (untar dst fsl 0 (hdrs.filter (fun h => !isExtHeader h))).err))
      ∧ (∀ (dst : GoStr) (fsl fll : Int) (hdrs : List TarHeader),
          (∀ g ∈ hdrs, isExtHeader g = true) → fll > 0 →
          (hdrs.length : Int) > fll →
          (untar dst fsl fll hdrs).err = some .tooManyFiles) := by
  constructor
  · intro dst fsl hdrs
    cases hdrs with
    | nil =>
      refine ⟨rfl, rfl, fun hf => ?_⟩
      simp at hf
    | cons h rest =>
      have hl : untar dst fsl 0 (h :: rest) = untarLoop dst fsl 0 (h :: rest) 0 0 := by
        rw [untar, if_neg (by simp)]
      cases hfil : (h :: rest).filter (fun h => !isExtHeader h) with
      | nil =>
        have hfe : untarLoop dst fsl 0 (h :: rest) 0 0 = ⟨[], [], none⟩ := by
          rw [← untarLoop_filter_ext, hfil]
          rfl
        rw [hl, hfe]
        refine ⟨rfl, rfl, fun hf => absurd rfl hf⟩
      | cons g grest =>
        have hr : untar dst fsl 0 (g :: grest) = untarLoop dst fsl 0 (g :: grest) 0 0 := by
          rw [untar, if_neg (by simp)]
        rw [hl, hr, ← hfil, untarLoop_filter_ext]
        exact ⟨rfl, rfl, fun _ => rfl⟩
  · intro dst fsl fll hdrs hall hfll hlen
    cases hdrs with
    | nil =>
      simp at hlen
      omega
    | cons h rest =>
      show (untarLoop dst fsl fll (h :: rest) 0 0).err = some .tooManyFiles
      rw [untarLoop_allext_count dst fsl fll hfll (h :: rest) 0 0 hall (by omega)
        (by omega)]

/-- C7: `GetExpander` returns the first registered expander whose matcher
accepts the name and `none` when none match; the tar-family matcher accepts
`archive.tar.bz2` while the bzip2 matcher rejects every name containing
`tar`, so no registration order can hand `archive.tar.bz2` to the bare bzip2
expander. -/
theorem c7_expander_dispatch :
    (∀ x : GoStr, GetExpander [] x = none)
      ∧ (∀ (t : ExpanderTag) (l : List ExpanderTag) (x : GoStr),
          GetExpander (t :: l) x
            = if expanderMatcher t x then some t else GetExpander l x)
      ∧ expanderMatcher .tar (gs "archive.tar.bz2") = true
      ∧ (∀ name : GoStr, goContains name (gs "tar") = true →
          expanderMatcher .bzip2 name = false)
      ∧ (∀ l : List ExpanderTag, GetExpander l (gs "archive.tar.bz2") ≠ some .bzip2) := by
  refine ⟨?_, ?_, ?_, ?_, ?_⟩
  · intro x
    rfl
  · intro t l x
    by_cases h : expanderMatcher t x = true
    · rw [if_pos h]
      exact List.find?_cons_of_pos _ h
    · rw [if_neg h]
      exact List.find?_cons_of_neg _ (by simpa using h)
  · decide
  · intro name h
    simp [expanderMatcher, h]
  · intro l
    induction l with
    | nil => simp [GetExpander]
    | cons t l ih =>
      cases t with
      | tar =>
        show List.find? _ _ ≠ _
        rw [List.find?_cons_of_pos _ (by decide)]
        simp
      | zip =>
        show List.find? _ _ ≠ _
        rw [List.find?_cons_of_neg _ (by decide)]
        exact ih
      | bzip2 =>
        show List.find? _ _ ≠ _
        rw [List.find?_cons_of_neg _ (by decide)]
        exact ih

/-- C9: the OCI gatherer rewrites every literal occurrence of `localhost` to
`127.0.0.1` (no occurrence survives the rewrite, and the scenario URI is
rewritten before the reference is parsed), `ociURLParse` strips a leading
`oci://` or `oci::` marker, and an empty parsed reference component defaults
to `latest`. -/
theorem c9_oci_normalization :
    (∀ source : GoStr,
        goContains (ociRewriteLocalhost source) (gs "localhost") = false)
      ∧ ociGatherNormalize (gs "oci://localhost:5000/repo:tag")
          = gs "127.0.0.1:5000/repo:tag"
      ∧ (∀ rest : GoStr,
          goContains rest (gs "::") = false →
          goContains rest (gs "://") = false →
          ociURLParse (gs "oci://" ++ rest) = rest
            ∧ ociURLParse (gs "oci::" ++ rest) = rest)
      ∧ (∀ r : OCIRef,
          (r.reference = [] →
            ociDefaultReference r = { r with reference := gs "latest" })
            ∧ (r.reference ≠ [] → ociDefaultReference r = r)) := by
  refine ⟨?_, ?_, ?_, ?_⟩
  · intro source
    rw [ociRewriteLocalhost]
    by_cases hc : goContains source (gs "localhost") = true
    · rw [if_pos hc, gs_localhost, gs_ip]
      exact lhGone source
    · rw [if_neg hc]
      simpa using hc
  · decide
  · intro rest h2c h3c
    constructor
    · have hnc : goContains (gs "oci://" ++ rest) (gs "::") = false := by
        have hstep : goContains (gs "oci://" ++ rest) (gs "::")
            = goContains rest (gs "::") := by
          simp [gs, goContains, goStarts]
        rw [hstep]
        exact h2c
      have hcut : goCut (gs "oci://" ++ rest) (gs "://") = (gs "oci", rest, true) := by
        simp [gs, goCut, goStarts]
      have hcond : ¬ (goContains (gs "oci://" ++ rest) (gs "::") = true) := by
        simp [hnc]
      simp only [ociURLParse]
      rw [if_neg hcond, hcut]
      rfl
    · have hyes : goContains (gs "oci::" ++ rest) (gs "::") = true := by
        simp [gs, goContains, goStarts]
      have hsp : goSplit (gs "oci::" ++ rest) (gs "::") = [gs "oci", rest] := by
        simp [goSplit, gs, goSplitAux, goStarts]
        rw [goSplitAux_skip]
        simp
        exact goSplit_not_found rest [':', ':'] (by decide) (by simpa [gs] using h2c)
      simp only [ociURLParse]
      rw [if_pos hyes, hsp]
      simp only [List.getD_cons_succ, List.getD_cons_zero]
      rw [goCut_not_found rest (gs "://") h3c]
      rfl
  · intro r
    constructor
    · intro h
      simp [ociDefaultReference, h]
    · intro h
      simp [ociDefaultReference, h]

/-- C10: every `GetPinnedURL` variant rejects an empty URL; the git variant
rejects an unset commit hash and the OCI variant an unset digest; and every
successful result begins with the backend's marker (`git::`, `oci::`,
`http::`, `file::`). -/
theorem c10_pinned_urls :
    (∀ commit : GoStr, gitGetPinnedURL commit [] = .error (gs "empty URL"))
      ∧ (∀ digest : GoStr, ociGetPinnedURL digest [] = .error (gs "empty URL"))
      ∧ httpGetPinnedURL [] = .error (gs "empty URL")
      ∧ fsGetPinnedURL [] = .error (gs "empty file path")
      ∧ (∀ u : GoStr, u ≠ [] →
          gitGetPinnedURL [] u = .error (gs "latest commit not set"))
      ∧ (∀ u : GoStr, u ≠ [] →
          ociGetPinnedURL [] u = .error (gs "image digest not set"))
      ∧ (∀ commit u v : GoStr,
          gitGetPinnedURL commit u = .ok v → goStarts (gs "git::") v = true)
      ∧ (∀ digest u v : GoStr,
          ociGetPinnedURL digest u = .ok v → goStarts (gs "oci::") v = true)
      ∧ (∀ u v : GoStr,
          httpGetPinnedURL u = .ok v → goStarts (gs "http::") v = true)
      ∧ (∀ u v : GoStr,
          fsGetPinnedURL u = .ok v → goStarts (gs "file::") v = true) := by
  refine ⟨fun c => rfl, fun d => rfl, rfl, rfl, ?_, ?_, ?_, ?_, ?_, ?_⟩
  · intro u hu
    rw [gitGetPinnedURL, if_neg (by simp [hu]), if_pos rfl]
  · intro u hu
    rw [ociGetPinnedURL, if_neg (by simp [hu]), if_pos rfl]
  · intro commit u v h
    rw [gitGetPinnedURL] at h
    split at h
    · simp at h
    · split at h
      · simp at h
      · rw [Except.ok.injEq] at h
        rw [← h]
        exact goStarts_append_self _ _
  · intro digest u v h
    rw [ociGetPinnedURL] at h
    split at h
    · simp at h
    · split at h
      · simp at h
      · rw [Except.ok.injEq] at h
        rw [← h]
        exact goStarts_append_self _ _
  · intro u v h
    rw [httpGetPinnedURL] at h
    split at h
    · simp at h
    · rw [Except.ok.injEq] at h
      rw [← h]
      exact goStarts_append_self _ _
  · intro u v h
    rw [fsGetPinnedURL] at h
    split at h
    · simp at h
    · rw [Except.ok.injEq] at h
      rw [← h]
      exact goStarts_append_self _ _

/-- C1 witness: a benign archive's written file is inside the destination;
the zip-slip entry `../../etc/passwd` aborts both expanders with the
"illegal file path" error at the escaped path. -/
theorem c1_path_containment_witness :
    insideDst (gs "/tmp/out") (goClean (gs "/tmp/out/sub/a.txt")) = true
      ∧ (untar (gs "/tmp/out") 0 0 [⟨gs "../../etc/passwd", TypeFlag.reg, 3⟩]).err
          = some (.illegalPath (goJoin (gs "/tmp/out") (gs "../../etc/passwd")))
      ∧ (ZipExpander.expand ⟨0, 0⟩ (gs "/tmp/out")
            [⟨gs "../../etc/passwd", false, 4, [4]⟩]).err
          = some (.illegalPath (goJoin (gs "/tmp/out") (gs "../../etc/passwd"))) := by
  refine ⟨?_, ?_, ?_⟩
  · exact (c1_path_containment.1 (gs "/tmp/out") 0 0
      [⟨gs "sub", TypeFlag.dir, 0⟩, ⟨gs "sub/a.txt", TypeFlag.reg, 3⟩]).1
      (gs "/tmp/out/sub/a.txt") (by decide)
  · exact (c1_path_containment.2.2.1 (gs "/tmp/out") []
      ⟨gs "../../etc/passwd", TypeFlag.reg, 3⟩ [] (by simp) (by decide) (by decide)).1
  · exact (c1_path_containment.2.2.2 0 (gs "/tmp/out") []
      ⟨gs "../../etc/passwd", false, 4, [4]⟩ [] (by simp) (by decide)).1

/-- C2 witness: concrete instances of the amended size-limit accounting. -/
theorem c2_size_limit_scope_witness :
    ((tarPayload [⟨gs "a", TypeFlag.reg, 2⟩, ⟨gs "b", TypeFlag.reg, 2⟩] : Int) ≤ 4)
      ∧ (untar (gs "/d") 3 0
          ([⟨gs "a", TypeFlag.reg, 2⟩, ⟨gs "b", TypeFlag.reg, 2⟩] ++ [])).err ≠ none
      ∧ (((⟨gs "a", false, 1, [1]⟩ : ZipEntry).declaredSize : Int) ≤ 1
          ∧ ((⟨gs "a", false, 1, [1]⟩ : ZipEntry).isDir = false →
              ((⟨gs "a", false, 1, [1]⟩ : ZipEntry).chunks.sum : Int) ≤ 1)) := by
  refine ⟨?_, ?_, ?_⟩
  · exact c2_size_limit_scope.1 (gs "/d") 4 0
      [⟨gs "a", TypeFlag.reg, 2⟩, ⟨gs "b", TypeFlag.reg, 2⟩] (by decide) (by decide)
  · exact c2_size_limit_scope.2.1 (gs "/d") 3 0
      [⟨gs "a", TypeFlag.reg, 2⟩, ⟨gs "b", TypeFlag.reg, 2⟩] [] (by decide) (by decide)
  · exact c2_size_limit_scope.2.2 1 0 (gs "/d") [⟨gs "a", false, 1, [1]⟩]
      (by decide) (by decide) ⟨gs "a", false, 1, [1]⟩ (by decide)

/-- C3 witness: the tar-family bound at a concrete run, and the zip
expander's indifference to `FilesLimit` at a concrete run. -/
theorem c3_files_limit_scope_witness :
    ((([⟨gs "a", TypeFlag.reg, 0⟩] : List TarHeader).length : Int) ≤ 2)
      ∧ ZipExpander.expand ⟨0, 5⟩ (gs "/e") [⟨gs "a", false, 1, [1]⟩]
          = ZipExpander.expand ⟨0, 9⟩ (gs "/e") [⟨gs "a", false, 1, [1]⟩] := by
  refine ⟨?_, ?_⟩
  · exact c3_files_limit_scope.1 (gs "/d") 0 2 [⟨gs "a", TypeFlag.reg, 0⟩]
      (by decide) (by decide)
  · exact c3_files_limit_scope.2 0 5 9 (gs "/e") [⟨gs "a", false, 1, [1]⟩]

/-- C4 witness: the empty stream errs, a pax-only stream is a silent no-op. -/
theorem c4_empty_tar_witness :
    untar (gs "/d") 7 5 [] = ⟨[], [], some .emptyTar⟩
      ∧ untar (gs "/d") 7 5 [⟨gs "g", TypeFlag.xGlobalHeader, 0⟩] = ⟨[], [], none⟩ := by
  exact ⟨c4_empty_tar.1 (gs "/d") 7 5,
    c4_empty_tar.2 (gs "/d") 7 5 ⟨gs "g", TypeFlag.xGlobalHeader, 0⟩ (by decide)⟩

/-- C5 witness: filtering the pax header out of a concrete stream leaves the
outcome unchanged, and a pax-only stream trips a positive `FilesLimit`. -/
theorem c5_pax_accounting_witness :
    ((untar (gs "/d") 0 0
          [⟨gs "g", TypeFlag.xGlobalHeader, 0⟩, ⟨gs "a", TypeFlag.reg, 1⟩]).err
        = (untar (gs "/d") 0 0
            ([⟨gs "g", TypeFlag.xGlobalHeader, 0⟩, ⟨gs "a", TypeFlag.reg, 1⟩].filter
              (fun h => !isExtHeader h))).err)
      ∧ (untar (gs "/d") 0 1
          [⟨gs "g", TypeFlag.xGlobalHeader, 0⟩, ⟨gs "h", TypeFlag.xHeader, 0⟩]).err
        = some .tooManyFiles := by
  refine ⟨?_, ?_⟩
  · exact (c5_pax_accounting.1 (gs "/d") 0
      [⟨gs "g", TypeFlag.xGlobalHeader, 0⟩, ⟨gs "a", TypeFlag.reg, 1⟩]).2.2 (by decide)
  · exact c5_pax_accounting.2 (gs "/d") 0 1
      [⟨gs "g", TypeFlag.xGlobalHeader, 0⟩, ⟨gs "h", TypeFlag.xHeader, 0⟩]
      (by decide) (by decide) (by decide)

/-- C7 witness: the bzip2 matcher rejects `archive.tar.bz2` because the name
contains `tar`. -/
theorem c7_expander_dispatch_witness :
    expanderMatcher .bzip2 (gs "archive.tar.bz2") = false := by
  exact c7_expander_dispatch.2.2.2.1 (gs "archive.tar.bz2") (by decide)

/-- C9 witness: marker stripping and reference defaulting at concrete
inputs. -/
theorem c9_oci_normalization_witness :
    (ociURLParse (gs "oci://" ++ gs "quay.io/org/repo:tag") = gs "quay.io/org/repo:tag"
        ∧ ociURLParse (gs "oci::" ++ gs "quay.io/org/repo:tag") = gs "quay.io/org/repo:tag")
      ∧ ociDefaultReference ⟨gs "quay.io", gs "org/repo", []⟩
          = ⟨gs "quay.io", gs "org/repo", gs "latest"⟩
      ∧ ociDefaultReference ⟨gs "quay.io", gs "org/repo", gs "v1"⟩
          = ⟨gs "quay.io", gs "org/repo", gs "v1"⟩ := by
  refine ⟨?_, ?_, ?_⟩
  · exact c9_oci_normalization.2.2.1 (gs "quay.io/org/repo:tag") (by decide) (by decide)
  · exact (c9_oci_normalization.2.2.2 ⟨gs "quay.io", gs "org/repo", []⟩).1 rfl
  · exact (c9_oci_normalization.2.2.2 ⟨gs "quay.io", gs "org/repo", gs "v1"⟩).2 (by decide)

/-- C10 witness: unset identity fields and marker-prefixed successes at
concrete inputs. -/
theorem c10_pinned_urls_witness :
    gitGetPinnedURL [] (gs "x") = .error (gs "latest commit not set")
      ∧ ociGetPinnedURL [] (gs "x") = .error (gs "image digest not set")
      ∧ goStarts (gs "git::") (gs "git::github.com/o/r.git?ref=abc") = true
      ∧ goStarts (gs "oci::") (gs "oci::q.io/r@sha") = true
      ∧ goStarts (gs "http::") (gs "http::e.com/f") = true
      ∧ goStarts (gs "file::") (gs "file::/tmp/x") = true := by
  refine ⟨?_, ?_, ?_, ?_, ?_, ?_⟩
  · exact c10_pinned_urls.2.2.2.2.1 (gs "x") (by decide)
  · exact c10_pinned_urls.2.2.2.2.2.1 (gs "x") (by decide)
  · exact c10_pinned_urls.2.2.2.2.2.2.1 (gs "abc")
      (gs "https://github.com/o/r.git?ref=main")
      (gs "git::github.com/o/r.git?ref=abc") rfl
  · exact c10_pinned_urls.2.2.2.2.2.2.2.1 (gs "sha") (gs "oci://q.io/r@old")
      (gs "oci::q.io/r@sha") rfl
  · exact c10_pinned_urls.2.2.2.2.2.2.2.2.1 (gs "https://e.com/f")
      (gs "http::e.com/f") rfl
  · exact c10_pinned_urls.2.2.2.2.2.2.2.2.2 (gs "file::/tmp/x")
      (gs "file::/tmp/x") rfl
